import Mathlib

/-!
Shallow embedding of `src/main.py`, a 65-step discrete-time TCP congestion
control simulator.  Python floats are modelled as rationals (`ℚ`), Python
ints as `ℤ`/`ℕ`, Python lists as `List`, and any operation that can raise
an `IndexError` (or block forever reading input) is modelled in `Option`,
with `none` meaning the Python program errors (or diverges).
-/

/-- Python `int(x)` on a float: truncation toward zero. -/
def pyInt (q : ℚ) : ℤ := if q < 0 then -⌊-q⌋ else ⌊q⌋

/-- Python `round` ties-to-even rounding of a scalar to an integer. -/
def bankersRound (q : ℚ) : ℤ :=
  if q - ⌊q⌋ < 1/2 then ⌊q⌋
  else if 1/2 < q - ⌊q⌋ then ⌊q⌋ + 1
  else if 2 ∣ ⌊q⌋ then ⌊q⌋ else ⌊q⌋ + 1

/-- Python `round(x, 2)`: round to two decimal digits. -/
def round2 (q : ℚ) : ℚ := (bankersRound (q * 100) : ℚ) / 100

/-- Bounds-checked list write at a nonnegative index, `none` on `IndexError`
(Python `l[i] = v` for `i : ℕ`). -/
def lset (l : List ℚ) (i : ℕ) (v : ℚ) : Option (List ℚ) :=
  if i < l.length then some (l.set i v) else none

/-- Python list write `l[i] = v` with an `i : ℤ` that may be negative:
negative indices wrap around from the end, out-of-range raises. -/
def pySet {α : Type} (l : List α) (i : ℤ) (v : α) : Option (List α) :=
  if 0 ≤ (if i < 0 then i + l.length else i) ∧
      (if i < 0 then i + l.length else i) < (l.length : ℤ) then
    some (l.set (if i < 0 then i + l.length else i).toNat v)
  else none

/-- Iterated `pySet` at indices `i, i+1, ...` (`n` writes), modelling
`for idx in range(a, b): l[idx] = v` with `n = max(0, b - a)`. -/
def writeRangeAux {α : Type} (v : α) : ℕ → ℤ → List α → Option (List α)
  | 0, _, l => some l
  | n + 1, i, l =>
    match pySet l i v with
    | none => none
    | some l2 => writeRangeAux v n (i + 1) l2

/-- Python `for idx in range(a, b): l[idx] = v`. -/
def writeRange {α : Type} (l : List α) (a b : ℤ) (v : α) : Option (List α) :=
  writeRangeAux v (b - a).toNat a l

/-- Overwrite every entry of the list from position `a` on with `v`
(`for x in range(a, len(l)): l[x] = v`; all such writes are in bounds). -/
def setFrom (l : List ℚ) (a : ℕ) (v : ℚ) : List ℚ :=
  match l, a with
  | [], _ => []
  | _ :: xs, 0 => v :: setFrom xs 0 v
  | x :: xs, n + 1 => x :: setFrom xs n v

/-- Embeds the parameter-setup routine of src/main.py lines 8-29: from the
operator scalars it derives `total_packets = total_data / mss` (Python true
division), a uniform `ssthresh` array of `ssthresh_val / mss`, and the
all-ones initial `rcwnd` array. -/
def init_parameters (total_data mss ssthresh_val : ℤ) : ℚ × List ℚ × List ℚ :=
  ((total_data : ℚ) / (mss : ℚ),
   List.replicate 65 ((ssthresh_val : ℚ) / (mss : ℚ)),
   List.replicate 65 (1 : ℚ))

/-- Embeds `update_rcwnd` (src/main.py lines 31-48).  The interactive input
stream is the list of `(time, value)` pairs; the loop ends at the first pair
whose `time / rtt` exceeds 65, otherwise it writes `value / mss` at indices
`int(time/rtt) .. 64`.  An exhausted input stream (the operator never sends
the sentinel) is `none`. -/
def update_rcwnd (rcwnd : List ℚ) (rtt mss : ℚ) : List (ℚ × ℚ) → Option (List ℚ)
  | [] => none
  | (tm, v) :: rest =>
    if tm / rtt > 65 then some rcwnd
    else
      match writeRange rcwnd (pyInt (tm / rtt)) 65 (v / mss) with
      | none => none
      | some r2 => update_rcwnd r2 rtt mss rest

/-- Worker for `get_working_binary`: processes the `(start, end)` input pairs
against the current marker array. -/
def gwbAux (rtt : ℚ) (wb : List ℤ) : List (ℚ × ℚ) → Option (List ℤ)
  | [] => none
  | (s, e) :: rest =>
    if s / rtt > 100 then some wb
    else
      match writeRange wb (pyInt (s / rtt)) (pyInt (e / rtt)) (-1) with
      | none => none
      | some wb2 => gwbAux rtt wb2 rest

/-- Embeds `get_working_binary` (src/main.py lines 50-66): builds the loss
marker array from `(start_time, end_time)` interval pairs, ending at the
first pair whose `start/rtt` exceeds 100. -/
def get_working_binary (rtt : ℚ) (inputs : List (ℚ × ℚ)) : Option (List ℤ) :=
  gwbAux rtt (List.replicate 65 0) inputs

/-- The `for _ in range(n)` growth loop of `update_cwnd` (src/main.py lines
81-85): each iteration adds 1 below the threshold and `1/cwnd` otherwise. -/
def grow (c th : ℚ) : ℕ → ℚ
  | 0 => c
  | n + 1 => grow (if c < th then c + 1 else c + 1 / c) th n

/-- Embeds `update_cwnd` (src/main.py lines 68-93).  Returns the new
`cwnd[t]` value together with the mutated `cwnd` and `sndwnd` arrays;
`none` models the `IndexError` raised when `t` is out of range. -/
def update_cwnd (cwnd : List ℚ) (t : ℕ) (sndwnd ssthresh rcwnd : List ℚ) :
    Option (ℚ × List ℚ × List ℚ) := do
  let prev ← cwnd.get? (t - 1)
  let cwnd1 ← lset cwnd t prev
  let sprev ← sndwnd.get? (t - 1)
  let th ← ssthresh.get? t
  let c1 := grow prev th (pyInt sprev).toNat
  let rc ← rcwnd.get? t
  let sv : ℤ := min (pyInt rc) (pyInt c1)
  let sndwnd1 ← lset sndwnd t (sv : ℚ)
  let c2 := if sv = pyInt c1 ∧ 11/20 < c1 - (pyInt c1 : ℚ) then (⌈c1⌉ : ℚ) else c1
  let c3 := round2 c2
  let cwnd2 ← lset cwnd1 t c3
  return (c3, cwnd2, sndwnd1)

/-- The mutable state of the `while` loop of `simulate_tcp_behavior`
(src/main.py lines 108-151). -/
structure SimSt where
  cwnd : List ℚ
  sndwnd : List ℚ
  ssthresh : List ℚ
  rcwnd : List ℚ
  back_off : ℕ
  total_sent : ℤ
  t : ℕ
deriving DecidableEq

/-- Result of one iteration of the loop body: either the loop continues with
a new state, or the completion `break` fires. -/
inductive StepRes where
  | cont (st : SimSt)
  | done (st : SimSt)
deriving DecidableEq

/-- The effective send window recomputed at the top of each loop iteration
(src/main.py line 115). -/
def sndOf (st : SimSt) : ℤ :=
  min (pyInt (st.rcwnd.getD st.t 0)) (pyInt (st.cwnd.getD st.t 0))

/-- The flight size computed at the top of each loop iteration
(src/main.py line 116). -/
def flightOf (tp : ℚ) (st : SimSt) : ℤ :=
  min (sndOf st) (pyInt (tp - (st.total_sent : ℚ)))

/-- One iteration of the `while` loop body of `simulate_tcp_behavior`
(src/main.py lines 114-151), with plotting calls dropped.  `none` models an
`IndexError` inside the body. -/
def simStep (total_data tp : ℚ) (wb : List ℤ) (st : SimSt) : Option StepRes := do
  let rc ← st.rcwnd.get? st.t
  let cw ← st.cwnd.get? st.t
  let sv : ℤ := min (pyInt rc) (pyInt cw)
  let snd1 ← lset st.sndwnd st.t (sv : ℚ)
  let flight : ℤ := min sv (pyInt (tp - (st.total_sent : ℚ)))
  let w ← wb.get? st.t
  if w = 0 then
    let sent2 := st.total_sent + flight
    if (sent2 : ℚ) = tp then
      return StepRes.done { st with sndwnd := snd1, back_off := 2, total_sent := sent2 }
    else
      let t2 := st.t + 1
      let (_, cwnd2, snd2) ← update_cwnd st.cwnd t2 snd1 st.ssthresh st.rcwnd
      return StepRes.cont { st with cwnd := cwnd2, sndwnd := snd2, back_off := 2,
                                    total_sent := sent2, t := t2 }
  else if w = -1 then
    let t2 := st.t + st.back_off
    let cwnd2 ← lset st.cwnd t2 1
    let ss2 := setFrom st.ssthresh t2 (max 2 ((flight : ℚ) / 2))
    let s2 ← snd1.get? t2
    let _flight2 : ℤ := min (pyInt s2) (pyInt (total_data - (st.total_sent : ℚ)))
    return StepRes.cont { st with cwnd := cwnd2, sndwnd := snd1, ssthresh := ss2,
                                  back_off := st.back_off * 2, t := t2 }
  else
    return StepRes.cont { st with sndwnd := snd1 }

/-- The `while total_sent < total_packets and t < 65` loop (src/main.py
line 114), driven by fuel; the loop makes at most 66 iterations when the
loss markers are all 0 or -1, so fuel 70 is unconstraining there.  The
boolean records whether the loop ended through the completion `break`. -/
def simLoop (total_data tp : ℚ) (wb : List ℤ) : ℕ → SimSt → Option (SimSt × Bool)
  | 0, _ => none
  | fuel + 1, st =>
    if (st.total_sent : ℚ) < tp ∧ st.t < 65 then
      match simStep total_data tp wb st with
      | none => none
      | some (StepRes.done st2) => some (st2, true)
      | some (StepRes.cont st2) => simLoop total_data tp wb fuel st2
    else some (st, false)

/-- Initial loop state (src/main.py lines 108-112). -/
def initSt (ssthresh rcwnd : List ℚ) : SimSt :=
  ⟨List.replicate 65 1, List.replicate 65 1, ssthresh, rcwnd, 2, 0, 0⟩

/-- Trailing sentinel marking of already-lost steps (src/main.py lines
157-159): any step marked lost gets send window -1. -/
def zipMark (wb : List ℤ) (snd : List ℚ) : List ℚ :=
  List.zipWith (fun w s => if w = -1 then (-1 : ℚ) else s) wb snd

/-- Embeds `simulate_tcp_behavior` (src/main.py lines 95-172): runs the
loop from the initial state, then marks the send windows of trailing and lost
steps with the -1 sentinel (lines 153-159).  `none` models an
`IndexError` during the run. -/
def simulate_tcp_behavior (total_data tp : ℚ) (wb : List ℤ)
    (ssthresh rcwnd : List ℚ) : Option SimSt :=
  match simLoop total_data tp wb 70 (initSt ssthresh rcwnd) with
  | none => none
  | some (st, _) =>
    some { st with sndwnd := zipMark wb (setFrom st.sndwnd st.t (-1)), t := 65 }

/-- Iterate the loop body alone `n` times (inspection harness used to look
at intermediate loop states; `none` if the body errors or breaks). -/
def stepN (total_data tp : ℚ) (wb : List ℤ) : ℕ → SimSt → Option SimSt
  | 0, st => some st
  | n + 1, st =>
    match simStep total_data tp wb st with
    | some (StepRes.cont st2) => stepN total_data tp wb n st2
    | _ => none

/-- The value stored into `cwnd[t]` by one call of `update_cwnd`, as a pure
function of the four scalars it depends on: the previous congestion window,
the threshold at `t`, the previous send window and the receiver window at
`t`.  This is the claim-level description of the updater: grow, derive the
send window, apply the 0.55 tie-break, round to two decimals. -/
def updVal (prev th sprev rc : ℚ) : ℚ :=
  round2 (if min (pyInt rc) (pyInt (grow prev th (pyInt sprev).toNat)) =
            pyInt (grow prev th (pyInt sprev).toNat) ∧
          11/20 < grow prev th (pyInt sprev).toNat -
            (pyInt (grow prev th (pyInt sprev).toNat) : ℚ)
        then (⌈grow prev th (pyInt sprev).toNat⌉ : ℚ)
        else grow prev th (pyInt sprev).toNat)

/-- The send window value stored into `sndwnd[t]` by one call of
`update_cwnd`, as a pure function of the same four scalars. -/
def updSnd (prev th sprev rc : ℚ) : ℤ :=
  min (pyInt rc) (pyInt (grow prev th (pyInt sprev).toNat))

/-- All four per-step arrays of a loop state have the fixed length 65. -/
def goodLens (st : SimSt) : Prop :=
  st.cwnd.length = 65 ∧ st.sndwnd.length = 65 ∧
  st.ssthresh.length = 65 ∧ st.rcwnd.length = 65

instance (st : SimSt) : Decidable (goodLens st) := by
  unfold goodLens; infer_instance

/-- Successor state of a completing normal step (the `break` at
src/main.py line 136). -/
def doneSt (tp : ℚ) (st : SimSt) : SimSt :=
  { st with sndwnd := st.sndwnd.set st.t (sndOf st : ℚ), back_off := 2,
            total_sent := st.total_sent + flightOf tp st }

/-- Successor state of a non-completing normal step (src/main.py lines
123-139): account the flight, advance one step, run the updater there. -/
def contSt (tp : ℚ) (st : SimSt) : SimSt :=
  { st with
    cwnd := st.cwnd.set (st.t + 1)
      (updVal (st.cwnd.getD st.t 0) (st.ssthresh.getD (st.t + 1) 0)
        (sndOf st : ℚ) (st.rcwnd.getD (st.t + 1) 0)),
    sndwnd := (st.sndwnd.set st.t (sndOf st : ℚ)).set (st.t + 1)
      ((updSnd (st.cwnd.getD st.t 0) (st.ssthresh.getD (st.t + 1) 0)
        (sndOf st : ℚ) (st.rcwnd.getD (st.t + 1) 0) : ℤ) : ℚ),
    back_off := 2,
    total_sent := st.total_sent + flightOf tp st,
    t := st.t + 1 }

/-- Successor state of a loss step (src/main.py lines 141-151): skip ahead
by the backoff, double it, reset the congestion window at the new step, and
revise the threshold for every remaining step. -/
def lossSt (tp : ℚ) (st : SimSt) : SimSt :=
  { st with
    cwnd := st.cwnd.set (st.t + st.back_off) 1,
    sndwnd := st.sndwnd.set st.t (sndOf st : ℚ),
    ssthresh := setFrom st.ssthresh (st.t + st.back_off)
      (max 2 ((flightOf tp st : ℚ) / 2)),
    back_off := st.back_off * 2,
    t := st.t + st.back_off }

/-- Successor state of the fall-through branch (a loss marker that is
neither 0 nor -1; unreachable for markers built by `get_working_binary`). -/
def otherSt (st : SimSt) : SimSt :=
  { st with sndwnd := st.sndwnd.set st.t (sndOf st : ℚ) }

/-- The state carried by either constructor of `StepRes`. -/
def stOf : StepRes → SimSt
  | StepRes.cont st => st
  | StepRes.done st => st

/-- A loss-marker array that is all normal (no loss steps). -/
def wbZeros : List ℤ := List.replicate 65 0

/-- A loss-marker array with a single lost step at index `k`. -/
def wbLossAt (k : ℕ) : List ℤ := (List.replicate 65 0).set k (-1)

/-- A mid-run loop state at step 3 with backoff 2, used to exercise the loss
branch concretely. -/
def demoLossSt : SimSt :=
  ⟨List.replicate 65 1, List.replicate 65 1, List.replicate 65 8,
   List.replicate 65 1, 2, 0, 3⟩

/-- A loop state at the last step of the horizon with the transfer still far
from complete, used to exercise the out-of-bounds update at step 65. -/
def stAt64 : SimSt :=
  ⟨List.replicate 65 1, List.replicate 65 1, List.replicate 65 1000,
   List.replicate 65 1, 2, 0, 64⟩

theorem get?_eq_getD {α : Type} (l : List α) (i : ℕ) (d : α) (h : i < l.length) :
    l.get? i = some (l.getD i d) := by
  induction l generalizing i with
  | nil => simp at h
  | cons x xs ih =>
    cases i with
    | zero => simp
    | succ n => simpa using ih n (by simpa using h)

theorem getD_set_self {α : Type} (l : List α) (i : ℕ) (v d : α) (h : i < l.length) :
    (l.set i v).getD i d = v := by
  induction l generalizing i with
  | nil => simp at h
  | cons x xs ih =>
    cases i with
    | zero => simp
    | succ n => simpa using ih n (by simpa using h)

theorem getD_set_ne {α : Type} (l : List α) (i j : ℕ) (v d : α) (hij : i ≠ j) :
    (l.set i v).getD j d = l.getD j d := by
  induction l generalizing i j with
  | nil => simp
  | cons x xs ih =>
    cases i with
    | zero => cases j with
      | zero => exact absurd rfl hij
      | succ m => simp
    | succ n => cases j with
      | zero => simp
      | succ m => simpa using ih n m (by omega)

theorem length_setFrom (l : List ℚ) (a : ℕ) (v : ℚ) :
    (setFrom l a v).length = l.length := by
  induction l generalizing a with
  | nil => simp [setFrom]
  | cons x xs ih =>
    cases a with
    | zero => simpa [setFrom] using ih 0
    | succ n => simpa [setFrom] using ih n

theorem getD_setFrom_of_le (l : List ℚ) (a i : ℕ) (v d : ℚ) (hai : a ≤ i)
    (hi : i < l.length) : (setFrom l a v).getD i d = v := by
  induction l generalizing a i with
  | nil => simp at hi
  | cons x xs ih =>
    cases a with
    | zero =>
      cases i with
      | zero => simp [setFrom]
      | succ m => simpa [setFrom] using ih 0 m (by omega) (by simpa using hi)
    | succ n =>
      cases i with
      | zero => omega
      | succ m => simpa [setFrom] using ih n m (by omega) (by simpa using hi)

theorem getD_setFrom_of_lt (l : List ℚ) (a i : ℕ) (v d : ℚ) (hia : i < a) :
    (setFrom l a v).getD i d = l.getD i d := by
  induction l generalizing a i with
  | nil => simp [setFrom]
  | cons x xs ih =>
    cases a with
    | zero => omega
    | succ n =>
      cases i with
      | zero => simp [setFrom]
      | succ m => simpa [setFrom] using ih n m (by omega)

theorem lset_eq_some (l : List ℚ) (i : ℕ) (v : ℚ) (h : i < l.length) :
    lset l i v = some (l.set i v) := by
  simp [lset, h]

theorem set_set_same {α : Type} (l : List α) (i : ℕ) (v w : α) :
    (l.set i v).set i w = l.set i w := by
  induction l generalizing i with
  | nil => simp
  | cons x xs ih =>
    cases i with
    | zero => simp
    | succ n => simp [ih n]

theorem update_cwnd_eq (cwnd sndwnd ssthresh rcwnd : List ℚ) (t : ℕ)
    (h1 : cwnd.length = 65) (h2 : sndwnd.length = 65) (h3 : ssthresh.length = 65)
    (h4 : rcwnd.length = 65) (ht : t < 65) :
    update_cwnd cwnd t sndwnd ssthresh rcwnd =
      some (updVal (cwnd.getD (t-1) 0) (ssthresh.getD t 0) (sndwnd.getD (t-1) 0)
              (rcwnd.getD t 0),
            cwnd.set t (updVal (cwnd.getD (t-1) 0) (ssthresh.getD t 0)
              (sndwnd.getD (t-1) 0) (rcwnd.getD t 0)),
            sndwnd.set t ((updSnd (cwnd.getD (t-1) 0) (ssthresh.getD t 0)
              (sndwnd.getD (t-1) 0) (rcwnd.getD t 0) : ℤ) : ℚ)) := by
  have e1 : cwnd.get? (t-1) = some (cwnd.getD (t-1) 0) :=
    get?_eq_getD _ _ _ (by omega)
  have e2 : sndwnd.get? (t-1) = some (sndwnd.getD (t-1) 0) :=
    get?_eq_getD _ _ _ (by omega)
  have e3 : ssthresh.get? t = some (ssthresh.getD t 0) :=
    get?_eq_getD _ _ _ (by omega)
  have e4 : rcwnd.get? t = some (rcwnd.getD t 0) :=
    get?_eq_getD _ _ _ (by omega)
  have e5 : lset cwnd t (cwnd.getD (t-1) 0) = some (cwnd.set t (cwnd.getD (t-1) 0)) :=
    lset_eq_some _ _ _ (by omega)
  have e6 : lset sndwnd t ((min (pyInt (rcwnd.getD t 0))
        (pyInt (grow (cwnd.getD (t-1) 0) (ssthresh.getD t 0)
          (pyInt (sndwnd.getD (t-1) 0)).toNat)) : ℤ) : ℚ) =
      some (sndwnd.set t ((min (pyInt (rcwnd.getD t 0))
        (pyInt (grow (cwnd.getD (t-1) 0) (ssthresh.getD t 0)
          (pyInt (sndwnd.getD (t-1) 0)).toNat)) : ℤ) : ℚ)) :=
    lset_eq_some _ _ _ (by omega)
  have e7 : ∀ v : ℚ, lset (cwnd.set t (cwnd.getD (t-1) 0)) t v =
      some ((cwnd.set t (cwnd.getD (t-1) 0)).set t v) := by
    intro v
    exact lset_eq_some _ _ _ (by simp only [List.length_set]; omega)
  simp only [update_cwnd, e1, Option.pure_def, Option.bind_eq_bind, Option.some_bind]
  rw [e5]; simp only [Option.some_bind]
  rw [e2]; simp only [Option.some_bind]
  rw [e3]; simp only [Option.some_bind]
  rw [e4]; simp only [Option.some_bind]
  rw [e6]; simp only [Option.some_bind]
  rw [e7]; simp only [Option.some_bind, set_set_same]
  simp only [updVal, updSnd]

theorem update_cwnd_none (cwnd sndwnd ssthresh rcwnd : List ℚ) (t : ℕ)
    (h1 : cwnd.length = 65) (ht : ¬ t < 65) :
    update_cwnd cwnd t sndwnd ssthresh rcwnd = none := by
  by_cases h : t - 1 < 65
  · have e1 : cwnd.get? (t-1) = some (cwnd.getD (t-1) 0) :=
      get?_eq_getD _ _ _ (by omega)
    have e5 : lset cwnd t (cwnd.getD (t-1) 0) = none := by
      simp only [lset, if_neg (show ¬ t < cwnd.length by omega)]
    simp only [update_cwnd, e1, Option.pure_def, Option.bind_eq_bind, Option.some_bind]
    rw [e5]
    simp only [Option.none_bind]
  · have e1 : cwnd.get? (t-1) = none := by
      rw [List.get?_eq_none]
      omega
    simp only [update_cwnd, e1, Option.pure_def, Option.bind_eq_bind, Option.none_bind]

theorem simStep_cases (td tp : ℚ) (wb : List ℤ) (st : SimSt) (hL : goodLens st)
    (hwlen : wb.length = 65) (ht : st.t < 65) :
    simStep td tp wb st =
      (if wb.getD st.t 0 = 0 then
        (if ((st.total_sent + flightOf tp st : ℤ) : ℚ) = tp then
           some (StepRes.done (doneSt tp st))
         else if st.t + 1 < 65 then some (StepRes.cont (contSt tp st)) else none)
      else if wb.getD st.t 0 = -1 then
        (if st.t + st.back_off < 65 then some (StepRes.cont (lossSt tp st)) else none)
      else some (StepRes.cont (otherSt st))) := by
  obtain ⟨hc, hs, hss, hr⟩ := hL
  have e1 : st.rcwnd.get? st.t = some (st.rcwnd.getD st.t 0) :=
    get?_eq_getD _ _ _ (by omega)
  have e2 : st.cwnd.get? st.t = some (st.cwnd.getD st.t 0) :=
    get?_eq_getD _ _ _ (by omega)
  have e4 : wb.get? st.t = some (wb.getD st.t 0) :=
    get?_eq_getD _ _ _ (by omega)
  have e3 : lset st.sndwnd st.t ((min (pyInt (st.rcwnd.getD st.t 0))
        (pyInt (st.cwnd.getD st.t 0)) : ℤ) : ℚ) =
      some (st.sndwnd.set st.t ((min (pyInt (st.rcwnd.getD st.t 0))
        (pyInt (st.cwnd.getD st.t 0)) : ℤ) : ℚ)) :=
    lset_eq_some _ _ _ (by omega)
  simp only [simStep, e1, e2, Option.pure_def, Option.bind_eq_bind, Option.some_bind]
  rw [e3]; simp only [Option.some_bind, e4, Option.some_bind]
  by_cases h0 : wb.getD st.t 0 = 0
  · rw [if_pos h0, if_pos h0]
    by_cases hcmp : ((st.total_sent + flightOf tp st : ℤ) : ℚ) = tp
    · rw [if_pos (show ((st.total_sent + min (min (pyInt (st.rcwnd.getD st.t 0))
          (pyInt (st.cwnd.getD st.t 0))) (pyInt (tp - (st.total_sent : ℚ))) : ℤ) : ℚ) = tp
          from hcmp), if_pos hcmp]
      simp only [doneSt, sndOf, flightOf]
    · rw [if_neg (show ¬ ((st.total_sent + min (min (pyInt (st.rcwnd.getD st.t 0))
          (pyInt (st.cwnd.getD st.t 0))) (pyInt (tp - (st.total_sent : ℚ))) : ℤ) : ℚ) = tp
          from hcmp), if_neg hcmp]
      by_cases ht1 : st.t + 1 < 65
      · rw [update_cwnd_eq st.cwnd (st.sndwnd.set st.t _) st.ssthresh st.rcwnd
          (st.t + 1) hc (by simp only [List.length_set]; exact hs) hss hr ht1]
        simp only [Option.some_bind, if_pos ht1]
        have hlen2 : st.t < st.sndwnd.length := by omega
        simp only [contSt, sndOf, flightOf, Nat.add_sub_cancel,
          getD_set_self _ _ _ _ hlen2]
      · rw [update_cwnd_none st.cwnd (st.sndwnd.set st.t _) st.ssthresh st.rcwnd
          (st.t + 1) hc ht1]
        simp only [Option.none_bind, if_neg ht1]
  · rw [if_neg h0, if_neg h0]
    by_cases h1 : wb.getD st.t 0 = -1
    · rw [if_pos h1, if_pos h1]
      by_cases ht2 : st.t + st.back_off < 65
      · have e6 : lset st.cwnd (st.t + st.back_off) 1 =
            some (st.cwnd.set (st.t + st.back_off) 1) :=
          lset_eq_some _ _ _ (by omega)
        have e7 : (st.sndwnd.set st.t ((min (pyInt (st.rcwnd.getD st.t 0))
              (pyInt (st.cwnd.getD st.t 0)) : ℤ) : ℚ)).get? (st.t + st.back_off) =
            some ((st.sndwnd.set st.t _).getD (st.t + st.back_off) 0) :=
          get?_eq_getD _ _ _ (by simp only [List.length_set]; omega)
        rw [e6]; simp only [Option.some_bind]
        rw [e7]; simp only [Option.some_bind, if_pos ht2]
        simp only [lossSt, sndOf, flightOf]
      · have e6 : lset st.cwnd (st.t + st.back_off) 1 = none := by
          simp only [lset, if_neg (show ¬ st.t + st.back_off < st.cwnd.length by omega)]
        rw [e6]; simp only [Option.none_bind, if_neg ht2]
    · rw [if_neg h1, if_neg h1]
      simp only [otherSt, sndOf]

/-- C2: for every step t ≥ 1 (within the horizon), `update_cwnd` computes
`cwnd[t]` by starting from `cwnd[t-1]`, performing `int(sndwnd[t-1])`
increments (each +1 below `ssthresh[t]`, else +1/cwnd), then setting
`sndwnd[t] = min(int(rcwnd[t]), int(cwnd[t]))`, applying the 0.55
ceiling tie-break when the send window is capped by the congestion window,
and finally rounding to two decimals — exactly the pure formula `updVal`
(with send window `updSnd`). -/
theorem C2_update_cwnd_formula (cwnd sndwnd ssthresh rcwnd : List ℚ) (t : ℕ)
    (h1 : cwnd.length = 65) (h2 : sndwnd.length = 65) (h3 : ssthresh.length = 65)
    (h4 : rcwnd.length = 65) (ht1 : 1 ≤ t) (ht : t ≤ 64) :
    update_cwnd cwnd t sndwnd ssthresh rcwnd =
      some (updVal (cwnd.getD (t-1) 0) (ssthresh.getD t 0) (sndwnd.getD (t-1) 0)
              (rcwnd.getD t 0),
            cwnd.set t (updVal (cwnd.getD (t-1) 0) (ssthresh.getD t 0)
              (sndwnd.getD (t-1) 0) (rcwnd.getD t 0)),
            sndwnd.set t ((updSnd (cwnd.getD (t-1) 0) (ssthresh.getD t 0)
              (sndwnd.getD (t-1) 0) (rcwnd.getD t 0) : ℤ) : ℚ)) :=
  update_cwnd_eq cwnd sndwnd ssthresh rcwnd t h1 h2 h3 h4 (by omega)

/-- C2 witness: the concrete instance from the claim — with `cwnd[t-1] = 10.0`,
`ssthresh[t] = 5`, `sndwnd[t-1] = 1` the returned `cwnd[t]` is exactly
10.1. -/
theorem C2_update_cwnd_formula_witness :
    update_cwnd (List.replicate 65 10) 1 (List.replicate 65 1)
        (List.replicate 65 5) (List.replicate 65 1) =
      some (101/10, (List.replicate 65 (10:ℚ)).set 1 (101/10),
            (List.replicate 65 (1:ℚ)).set 1 1) := by
  have h := C2_update_cwnd_formula (List.replicate 65 10) (List.replicate 65 1)
    (List.replicate 65 5) (List.replicate 65 1) 1
    (by simp) (by simp) (by simp) (by simp) (by omega) (by omega)
  rw [h]
  with_unfolding_all decide

/-- C3: a loss step processed at `t` with backoff `b` (with `t+b` inside the
horizon) continues the loop at step `t+b`, resets `cwnd[t+b]` to 1, writes
`max(2, flight_size/2)` into `ssthresh[x]` for every `x` from `t+b` to 64
(leaving earlier entries alone), and credits no packets to `total_sent`;
moreover no normal step ever writes `ssthresh`, so the revision persists
until a later loss overwrites it. -/
theorem C3_loss_transition (td tp : ℚ) (wb : List ℤ) (st : SimSt)
    (hL : goodLens st) (hwlen : wb.length = 65) (ht : st.t < 65)
    (hw : wb.getD st.t 0 = -1) (hb : st.t + st.back_off ≤ 64) :
    (simStep td tp wb st = some (StepRes.cont (lossSt tp st)) ∧
     (lossSt tp st).t = st.t + st.back_off ∧
     (lossSt tp st).cwnd.getD (st.t + st.back_off) 0 = 1 ∧
     (∀ x, st.t + st.back_off ≤ x → x ≤ 64 →
        (lossSt tp st).ssthresh.getD x 0 = max 2 ((flightOf tp st : ℚ) / 2)) ∧
     (∀ x, x < st.t + st.back_off →
        (lossSt tp st).ssthresh.getD x 0 = st.ssthresh.getD x 0) ∧
     (lossSt tp st).total_sent = st.total_sent) ∧
    (∀ (st2 : SimSt) (r : StepRes), goodLens st2 → st2.t < 65 →
       wb.getD st2.t 0 = 0 → simStep td tp wb st2 = some r →
       (stOf r).ssthresh = st2.ssthresh) := by
  obtain ⟨hc, hs, hss, hr⟩ := hL
  constructor
  · refine ⟨?_, rfl, ?_, ?_, ?_, rfl⟩
    · rw [simStep_cases td tp wb st ⟨hc, hs, hss, hr⟩ hwlen ht,
        if_neg (by rw [hw]; decide), if_pos hw, if_pos (by omega)]
    · exact getD_set_self _ _ _ _ (by omega)
    · intro x hx1 hx2
      exact getD_setFrom_of_le _ _ _ _ _ hx1 (by omega)
    · intro x hx
      exact getD_setFrom_of_lt _ _ _ _ _ hx
  · intro st2 r hL2 ht2 hw2 hstep
    rw [simStep_cases td tp wb st2 hL2 hwlen ht2, if_pos hw2] at hstep
    by_cases hcmp : ((st2.total_sent + flightOf tp st2 : ℤ) : ℚ) = tp
    · rw [if_pos hcmp] at hstep
      cases hstep
      rfl
    · rw [if_neg hcmp] at hstep
      by_cases ht1 : st2.t + 1 < 65
      · rw [if_pos ht1] at hstep
        cases hstep
        rfl
      · rw [if_neg ht1] at hstep
        exact absurd hstep (by simp)

/-- C3 witness: a concrete loss step at t = 3 with backoff 2 lands on step
5 and revises `ssthresh[10]` to `max(2, flight/2)`. -/
theorem C3_loss_transition_witness :
    simStep 50 50 (wbLossAt 3) demoLossSt =
      some (StepRes.cont (lossSt 50 demoLossSt)) ∧
    (lossSt 50 demoLossSt).ssthresh.getD 10 0 =
      max 2 ((flightOf 50 demoLossSt : ℚ) / 2) := by
  have h := C3_loss_transition 50 50 (wbLossAt 3) demoLossSt
    (by with_unfolding_all decide) (by with_unfolding_all decide)
    (by with_unfolding_all decide) (by with_unfolding_all decide)
    (by with_unfolding_all decide)
  exact ⟨h.1.1, h.1.2.2.2.1 10 (by with_unfolding_all decide) (by with_unfolding_all decide)⟩

/-- C7: the backoff multiplier starts at 2, is multiplied by 2 by every
processed loss step, and is reset to 2 by every processed normal step
(completing or not). -/
theorem C7_backoff_policy (td tp : ℚ) (wb : List ℤ) (ss rc : List ℚ)
    (hwlen : wb.length = 65) :
    (initSt ss rc).back_off = 2 ∧
    (∀ st r, goodLens st → st.t < 65 → wb.getD st.t 0 = -1 →
       simStep td tp wb st = some r → (stOf r).back_off = 2 * st.back_off) ∧
    (∀ st r, goodLens st → st.t < 65 → wb.getD st.t 0 = 0 →
       simStep td tp wb st = some r → (stOf r).back_off = 2) := by
  refine ⟨rfl, ?_, ?_⟩
  · intro st r hL ht hw h
    rw [simStep_cases td tp wb st hL hwlen ht, if_neg (by rw [hw]; decide),
      if_pos hw] at h
    by_cases hb : st.t + st.back_off < 65
    · rw [if_pos hb] at h
      cases h
      exact Nat.mul_comm _ _
    · rw [if_neg hb] at h
      exact absurd h (by simp)
  · intro st r hL ht hw h
    rw [simStep_cases td tp wb st hL hwlen ht, if_pos hw] at h
    by_cases hcmp : ((st.total_sent + flightOf tp st : ℤ) : ℚ) = tp
    · rw [if_pos hcmp] at h
      cases h
      rfl
    · rw [if_neg hcmp] at h
      by_cases ht1 : st.t + 1 < 65
      · rw [if_pos ht1] at h
        cases h
        rfl
      · rw [if_neg ht1] at h
        exact absurd h (by simp)

/-- C7 witness: at a concrete lost step the backoff doubles from 2 to 4. -/
theorem C7_backoff_policy_witness :
    (stOf (StepRes.cont (lossSt 50 demoLossSt))).back_off = 2 * 2 :=
  (C7_backoff_policy 50 50 (wbLossAt 3) (List.replicate 65 8)
      (List.replicate 65 1) (by with_unfolding_all decide)).2.1
    demoLossSt (StepRes.cont (lossSt 50 demoLossSt))
    (by with_unfolding_all decide) (by with_unfolding_all decide)
    (by with_unfolding_all decide) (by with_unfolding_all decide)

theorem pyInt_le (q : ℚ) (h : 0 ≤ q) : (pyInt q : ℚ) ≤ q := by
  unfold pyInt
  rw [if_neg (not_lt.mpr h)]
  exact_mod_cast Int.floor_le q

theorem contSt_lens (tp : ℚ) (st : SimSt) (hL : goodLens st) :
    goodLens (contSt tp st) := by
  obtain ⟨hc, hs, hss, hr⟩ := hL
  exact ⟨by simp [contSt, hc], by simp [contSt, hs], by simp [contSt, hss],
    by simp [contSt, hr]⟩

theorem lossSt_lens (tp : ℚ) (st : SimSt) (hL : goodLens st) :
    goodLens (lossSt tp st) := by
  obtain ⟨hc, hs, hss, hr⟩ := hL
  exact ⟨by simp [lossSt, hc], by simp [lossSt, hs],
    by simp [lossSt, length_setFrom, hss], by simp [lossSt, hr]⟩

theorem otherSt_lens (st : SimSt) (hL : goodLens st) : goodLens (otherSt st) := by
  obtain ⟨hc, hs, hss, hr⟩ := hL
  exact ⟨by simp [otherSt, hc], by simp [otherSt, hs], by simp [otherSt, hss],
    by simp [otherSt, hr]⟩

theorem simStep_done_inv (td tp : ℚ) (wb : List ℤ) (st st2 : SimSt)
    (hL : goodLens st) (hwlen : wb.length = 65) (ht : st.t < 65)
    (h : simStep td tp wb st = some (StepRes.done st2)) :
    st2 = doneSt tp st ∧ (st2.total_sent : ℚ) = tp := by
  rw [simStep_cases td tp wb st hL hwlen ht] at h
  by_cases h0 : wb.getD st.t 0 = 0
  · rw [if_pos h0] at h
    by_cases hcmp : ((st.total_sent + flightOf tp st : ℤ) : ℚ) = tp
    · rw [if_pos hcmp] at h
      cases h
      exact ⟨rfl, hcmp⟩
    · rw [if_neg hcmp] at h
      by_cases ht1 : st.t + 1 < 65
      · rw [if_pos ht1] at h; exact absurd h (by simp)
      · rw [if_neg ht1] at h; exact absurd h (by simp)
  · rw [if_neg h0] at h
    by_cases h1 : wb.getD st.t 0 = -1
    · rw [if_pos h1] at h
      by_cases hb : st.t + st.back_off < 65
      · rw [if_pos hb] at h; exact absurd h (by simp)
      · rw [if_neg hb] at h; exact absurd h (by simp)
    · rw [if_neg h1] at h; exact absurd h (by simp)

theorem simStep_cont_inv (td tp : ℚ) (wb : List ℤ) (st st2 : SimSt)
    (hL : goodLens st) (hwlen : wb.length = 65) (ht : st.t < 65)
    (h : simStep td tp wb st = some (StepRes.cont st2)) :
    (st2 = contSt tp st ∧ ¬ ((st.total_sent + flightOf tp st : ℤ) : ℚ) = tp ∧
       st.t + 1 < 65) ∨
    (st2 = lossSt tp st ∧ st.t + st.back_off < 65) ∨
    st2 = otherSt st := by
  rw [simStep_cases td tp wb st hL hwlen ht] at h
  by_cases h0 : wb.getD st.t 0 = 0
  · rw [if_pos h0] at h
    by_cases hcmp : ((st.total_sent + flightOf tp st : ℤ) : ℚ) = tp
    · rw [if_pos hcmp] at h; exact absurd h (by simp)
    · rw [if_neg hcmp] at h
      by_cases ht1 : st.t + 1 < 65
      · rw [if_pos ht1] at h
        cases h
        exact Or.inl ⟨rfl, hcmp, ht1⟩
      · rw [if_neg ht1] at h; exact absurd h (by simp)
  · rw [if_neg h0] at h
    by_cases h1 : wb.getD st.t 0 = -1
    · rw [if_pos h1] at h
      by_cases hb : st.t + st.back_off < 65
      · rw [if_pos hb] at h
        cases h
        exact Or.inr (Or.inl ⟨rfl, hb⟩)
      · rw [if_neg hb] at h; exact absurd h (by simp)
    · rw [if_neg h1] at h
      cases h
      exact Or.inr (Or.inr rfl)

theorem simStep_cont_next (td tp : ℚ) (wb : List ℤ) (st st2 : SimSt)
    (hL : goodLens st) (hwlen : wb.length = 65) (ht : st.t < 65)
    (h : simStep td tp wb st = some (StepRes.cont st2)) :
    goodLens st2 ∧ st2.t < 65 := by
  rcases simStep_cont_inv td tp wb st st2 hL hwlen ht h with
    ⟨he, _, ht1⟩ | ⟨he, hb⟩ | he
  · exact he ▸ ⟨contSt_lens tp st hL, ht1⟩
  · exact he ▸ ⟨lossSt_lens tp st hL, hb⟩
  · exact he ▸ ⟨otherSt_lens st hL, ht⟩

set_option maxRecDepth 10000 in
/-- C1 counterexample: for the valid schedule with no losses, a constantly
binding receiver window of 1 segment and 100 packets to send, the
simulation does not stay within indices 0..64: the normal step processed
at t = 64 leaves the transfer incomplete and the congestion-window updater
is invoked at step 65, an out-of-bounds write (an `IndexError`, modelled
here as `none`). -/
theorem C1_counterexample :
    simulate_tcp_behavior 100 100 wbZeros (List.replicate 65 1000)
      (List.replicate 65 1) = none := by
  with_unfolding_all rfl

/-- C1 amended: the loop body is total and in bounds except in exactly two
situations, where it raises an out-of-bounds error: a normal step processed
at t = 64 that does not complete the transfer (the updater is then invoked
at index 65), and a loss step whose backoff advance lands at or beyond
index 65. -/
theorem C1_amended_body_error_iff (td tp : ℚ) (wb : List ℤ) (st : SimSt)
    (hL : goodLens st) (hwlen : wb.length = 65) (ht : st.t < 65) :
    simStep td tp wb st = none ↔
      ((wb.getD st.t 0 = 0 ∧ ¬ ((st.total_sent + flightOf tp st : ℤ) : ℚ) = tp ∧
          st.t = 64) ∨
       (wb.getD st.t 0 = -1 ∧ 65 ≤ st.t + st.back_off)) := by
  rw [simStep_cases td tp wb st hL hwlen ht]
  by_cases h0 : wb.getD st.t 0 = 0
  · rw [if_pos h0]
    by_cases hcmp : ((st.total_sent + flightOf tp st : ℤ) : ℚ) = tp
    · rw [if_pos hcmp]
      refine iff_of_false (by simp) ?_
      rintro (⟨_, hn, _⟩ | ⟨hm, _⟩)
      · exact hn hcmp
      · rw [h0] at hm; exact absurd hm (by decide)
    · rw [if_neg hcmp]
      by_cases ht1 : st.t + 1 < 65
      · rw [if_pos ht1]
        refine iff_of_false (by simp) ?_
        rintro (⟨_, _, h64⟩ | ⟨hm, _⟩)
        · omega
        · rw [h0] at hm; exact absurd hm (by decide)
      · rw [if_neg ht1]
        exact iff_of_true rfl (Or.inl ⟨h0, hcmp, by omega⟩)
  · rw [if_neg h0]
    by_cases h1 : wb.getD st.t 0 = -1
    · rw [if_pos h1]
      by_cases hb : st.t + st.back_off < 65
      · rw [if_pos hb]
        refine iff_of_false (by simp) ?_
        rintro (⟨hm, _, _⟩ | ⟨_, hge⟩)
        · exact h0 hm
        · omega
      · rw [if_neg hb]
        exact iff_of_true rfl (Or.inr ⟨h1, by omega⟩)
    · rw [if_neg h1]
      refine iff_of_false (by simp) ?_
      rintro (⟨hm, _, _⟩ | ⟨hm, _⟩)
      · exact h0 hm
      · exact h1 hm

/-- C1 witness: a concrete non-completing normal step at t = 64 makes the
loop body error. -/
theorem C1_amended_body_error_iff_witness :
    simStep 100 100 wbZeros stAt64 = none := by
  have h := C1_amended_body_error_iff 100 100 wbZeros stAt64
    (by with_unfolding_all decide) (by with_unfolding_all decide)
    (by with_unfolding_all decide)
  exact h.mpr (by with_unfolding_all decide)

set_option maxRecDepth 10000 in
/-- C4 counterexample: a run that cannot reach its 100-packet target inside
the horizon (one packet per step, a loss at step 63) does not terminate in
a distinct reported outcome — it errors out of bounds (modelled `none`)
while advancing past step 64. -/
theorem C4_counterexample :
    simulate_tcp_behavior 100 100 (wbLossAt 63) (List.replicate 65 1000)
      (List.replicate 65 1) = none := by
  with_unfolding_all rfl

/-- C4 amended: the loop has no HORIZON_EXHAUSTED outcome at all — every
normal termination satisfies `total_sent ≥ total_packets`, and the
completion break satisfies `total_sent = total_packets`; a run that cannot
reach `total_packets` within the horizon therefore never terminates
normally (it aborts with an out-of-bounds index error instead). -/
theorem C4_amended_no_horizon_outcome (td tp : ℚ) (wb : List ℤ)
    (hwlen : wb.length = 65) :
    ∀ fuel (st r : SimSt) (b : Bool), goodLens st → st.t < 65 →
      simLoop td tp wb fuel st = some (r, b) →
      tp ≤ (r.total_sent : ℚ) ∧ (b = true → (r.total_sent : ℚ) = tp) := by
  intro fuel
  induction fuel with
  | zero =>
    intro st r b _ _ h
    exact absurd h (by simp [simLoop])
  | succ n ih =>
    intro st r b hL ht h
    rw [simLoop] at h
    by_cases hcond : (st.total_sent : ℚ) < tp ∧ st.t < 65
    · rw [if_pos hcond] at h
      cases hs : simStep td tp wb st with
      | none => rw [hs] at h; exact absurd h (by simp)
      | some res =>
        cases res with
        | done st2 =>
          rw [hs] at h
          simp only [Option.some.injEq, Prod.mk.injEq] at h
          obtain ⟨hr, hb⟩ := h
          have hd := simStep_done_inv td tp wb st st2 hL hwlen ht hs
          refine ⟨hr ▸ le_of_eq hd.2.symm, fun _ => hr ▸ hd.2⟩
        | cont st2 =>
          rw [hs] at h
          have hnx := simStep_cont_next td tp wb st st2 hL hwlen ht hs
          exact ih st2 r b hnx.1 hnx.2 h
    · rw [if_neg hcond] at h
      simp only [Option.some.injEq, Prod.mk.injEq] at h
      obtain ⟨hr, hb⟩ := h
      refine ⟨hr ▸ not_lt.mp (fun hlt => hcond ⟨hlt, ht⟩), ?_⟩
      intro hb2
      rw [← hb] at hb2
      exact absurd hb2 (by simp)

set_option maxRecDepth 10000 in
/-- C4 witness: a completing three-packet run terminates through the break
with `total_sent = total_packets = 3`. -/
theorem C4_amended_no_horizon_outcome_witness :
    (3 : ℚ) ≤ ((3 : ℤ) : ℚ) ∧
    ((⟨(List.replicate 65 1).set 1 2, (List.replicate 65 1).set 1 2,
        List.replicate 65 1000, List.replicate 65 1000, 2, 3, 1⟩ :
        SimSt).total_sent : ℚ) = 3 := by
  have h := C4_amended_no_horizon_outcome 50 3 wbZeros
    (by with_unfolding_all decide) 70
    (initSt (List.replicate 65 1000) (List.replicate 65 1000))
    ⟨(List.replicate 65 1).set 1 2, (List.replicate 65 1).set 1 2,
      List.replicate 65 1000, List.replicate 65 1000, 2, 3, 1⟩ true
    (by with_unfolding_all decide) (by with_unfolding_all decide)
    (by with_unfolding_all decide)
  exact ⟨h.1, h.2 rfl⟩

theorem getD_replicate {α : Type} (n i : ℕ) (a d : α) (h : i < n) :
    (List.replicate n a).getD i d = a := by
  induction n generalizing i with
  | zero => omega
  | succ m ih =>
    cases i with
    | zero => simp
    | succ j => simpa [List.replicate_succ] using ih j (by omega)

theorem simStep_ssthresh_ge2 (td tp : ℚ) (wb : List ℤ) (st : SimSt) (r : StepRes)
    (hL : goodLens st) (hwlen : wb.length = 65) (ht : st.t < 65)
    (h : simStep td tp wb st = some r)
    (hall : ∀ i, i < 65 → (2:ℚ) ≤ st.ssthresh.getD i 0) :
    ∀ i, i < 65 → (2:ℚ) ≤ (stOf r).ssthresh.getD i 0 := by
  cases r with
  | done st2 =>
    obtain ⟨heq, _⟩ := simStep_done_inv td tp wb st st2 hL hwlen ht h
    subst heq
    exact hall
  | cont st2 =>
    rcases simStep_cont_inv td tp wb st st2 hL hwlen ht h with
      ⟨he, _, _⟩ | ⟨he, hb⟩ | he
    · subst he; exact hall
    · subst he
      intro i hi
      by_cases hia : st.t + st.back_off ≤ i
      · rw [show (stOf (StepRes.cont (lossSt tp st))).ssthresh =
            setFrom st.ssthresh (st.t + st.back_off)
              (max 2 ((flightOf tp st : ℚ) / 2)) from rfl,
          getD_setFrom_of_le _ _ _ _ _ hia (by obtain ⟨_, _, hss, _⟩ := hL; omega)]
        exact le_max_left _ _
      · rw [show (stOf (StepRes.cont (lossSt tp st))).ssthresh =
            setFrom st.ssthresh (st.t + st.back_off)
              (max 2 ((flightOf tp st : ℚ) / 2)) from rfl,
          getD_setFrom_of_lt _ _ _ _ _ (by omega)]
        exact hall i hi
    · subst he; exact hall

/-- C9 counterexample: the parameter setup (`init_parameters`) performs no validation, so
with operator inputs `ssthresh_val = 1`, `mss = 1` the initial uniform
threshold is 1 < 2, violating the claimed invariant from step 0 on. -/
theorem C9_counterexample :
    (init_parameters 10 1 1).2.1.getD 0 0 = 1 ∧
    ¬ ((2:ℚ) ≤ (init_parameters 10 1 1).2.1.getD 0 0) := by
  with_unfolding_all decide

/-- C9 amended: provided the operator scalars satisfy `2 * mss ≤
ssthresh_val` (so the derived initial uniform threshold is at least 2), the
initial threshold array satisfies `ssthresh[i] ≥ 2` everywhere, and the
simulation loop preserves `ssthresh[i] ≥ 2` at every step of every run,
each loss revision writing `max(2, flight/2) ≥ 2`. -/
theorem C9_amended_ssthresh_ge_two (tdz mss sv : ℤ) (hm : 0 < mss)
    (h2 : 2 * mss ≤ sv) (td tp : ℚ) (wb : List ℤ) (hwlen : wb.length = 65) :
    (∀ i, i < 65 → (2:ℚ) ≤ (init_parameters tdz mss sv).2.1.getD i 0) ∧
    (∀ fuel (st r : SimSt) (b : Bool), goodLens st → st.t < 65 →
       (∀ i, i < 65 → (2:ℚ) ≤ st.ssthresh.getD i 0) →
       simLoop td tp wb fuel st = some (r, b) →
       ∀ i, i < 65 → (2:ℚ) ≤ r.ssthresh.getD i 0) := by
  constructor
  · intro i hi
    rw [show (init_parameters tdz mss sv).2.1 =
        List.replicate 65 ((sv : ℚ) / (mss : ℚ)) from rfl,
      getD_replicate _ _ _ _ hi]
    rw [le_div_iff₀ (by exact_mod_cast hm)]
    calc (2:ℚ) * mss = ((2 * mss : ℤ) : ℚ) := by push_cast; ring
      _ ≤ ((sv : ℤ) : ℚ) := by exact_mod_cast h2
  · intro fuel
    induction fuel with
    | zero =>
      intro st r b _ _ _ h
      exact absurd h (by simp [simLoop])
    | succ n ih =>
      intro st r b hL ht hall h
      rw [simLoop] at h
      by_cases hcond : (st.total_sent : ℚ) < tp ∧ st.t < 65
      · rw [if_pos hcond] at h
        cases hs : simStep td tp wb st with
        | none => rw [hs] at h; exact absurd h (by simp)
        | some res =>
          cases res with
          | done st2 =>
            rw [hs] at h
            simp only [Option.some.injEq, Prod.mk.injEq] at h
            obtain ⟨hr, _⟩ := h
            have := simStep_ssthresh_ge2 td tp wb st (StepRes.done st2)
              hL hwlen ht hs hall
            exact hr ▸ this
          | cont st2 =>
            rw [hs] at h
            have hnx := simStep_cont_next td tp wb st st2 hL hwlen ht hs
            have hall2 := simStep_ssthresh_ge2 td tp wb st (StepRes.cont st2)
              hL hwlen ht hs hall
            exact ih st2 r b hnx.1 hnx.2 hall2 h
      · rw [if_neg hcond] at h
        simp only [Option.some.injEq, Prod.mk.injEq] at h
        obtain ⟨hr, _⟩ := h
        exact hr ▸ hall

set_option maxRecDepth 10000 in
/-- C9 witness: with `ssthresh_val = 4`, `mss = 2` the initial threshold is
2 ≥ 2, and the threshold invariant carries through a concrete completing
run. -/
theorem C9_amended_ssthresh_ge_two_witness :
    (2:ℚ) ≤ (init_parameters 10 2 4).2.1.getD 0 0 ∧
    (2:ℚ) ≤ (⟨(List.replicate 65 1).set 1 2, (List.replicate 65 1).set 1 2,
      List.replicate 65 1000, List.replicate 65 1000, 2, 3, 1⟩ :
      SimSt).ssthresh.getD 0 0 := by
  have h := C9_amended_ssthresh_ge_two 10 2 4 (by omega) (by omega)
    50 3 wbZeros (by with_unfolding_all decide)
  refine ⟨h.1 0 (by omega), ?_⟩
  exact h.2 70 (initSt (List.replicate 65 1000) (List.replicate 65 1000))
    ⟨(List.replicate 65 1).set 1 2, (List.replicate 65 1).set 1 2,
      List.replicate 65 1000, List.replicate 65 1000, 2, 3, 1⟩ true
    (by with_unfolding_all decide) (by with_unfolding_all decide)
    (by
      intro i hi
      show (2:ℚ) ≤ (List.replicate 65 (1000:ℚ)).getD i 0
      rw [getD_replicate _ _ _ _ hi]
      norm_num)
    (by with_unfolding_all decide) 0 (by omega)

theorem flight_le_remaining (tp : ℚ) (st : SimSt)
    (h : (st.total_sent : ℚ) < tp) :
    ((st.total_sent + flightOf tp st : ℤ) : ℚ) ≤ tp := by
  have h1 : flightOf tp st ≤ pyInt (tp - (st.total_sent : ℚ)) := min_le_right _ _
  have h2 : (pyInt (tp - (st.total_sent : ℚ)) : ℚ) ≤ tp - (st.total_sent : ℚ) :=
    pyInt_le _ (by linarith)
  have h3 : (flightOf tp st : ℚ) ≤ tp - (st.total_sent : ℚ) :=
    le_trans (by exact_mod_cast h1) h2
  push_cast
  push_cast at h3
  linarith

/-- C10: when `total_packets` is not an integer, the COMPLETE transition is
unreachable: the loop body can never return the completion break (because
`total_sent` stays an integer while the test compares it for equality with
the non-integer target); once the fractional remainder drops below 1 the
computed flight size is 0 (for a nonnegative send window); and the loop as
a whole never terminates normally — starting from any in-horizon state with
`total_sent ≤ total_packets` it can only abort at the step horizon
(modelled `none`). -/
theorem C10_fractional_target_never_completes (td tp : ℚ) (wb : List ℤ)
    (hwlen : wb.length = 65) (hfrac : ¬ ∃ k : ℤ, (k : ℚ) = tp) :
    (∀ st st2, goodLens st → st.t < 65 →
       ¬ simStep td tp wb st = some (StepRes.done st2)) ∧
    (∀ st : SimSt, 0 ≤ sndOf st → 0 < tp - (st.total_sent : ℚ) →
       tp - (st.total_sent : ℚ) < 1 → flightOf tp st = 0) ∧
    (∀ fuel (st : SimSt), goodLens st → st.t < 65 →
       (st.total_sent : ℚ) ≤ tp → simLoop td tp wb fuel st = none) := by
  refine ⟨?_, ?_, ?_⟩
  · intro st st2 hL ht h
    exact hfrac ⟨st2.total_sent, (simStep_done_inv td tp wb st st2 hL hwlen ht h).2⟩
  · intro st h0 h1 h2
    have hfl : ⌊tp - (st.total_sent : ℚ)⌋ = 0 := by
      rw [Int.floor_eq_zero_iff]
      constructor
      · linarith
      · linarith
    have hp : pyInt (tp - (st.total_sent : ℚ)) = 0 := by
      unfold pyInt
      rw [if_neg (not_lt.mpr (by linarith)), hfl]
    unfold flightOf
    rw [hp]
    exact min_eq_right h0
  · intro fuel
    induction fuel with
    | zero =>
      intro st _ _ _
      rfl
    | succ n ih =>
      intro st hL ht hle
      have hne : (st.total_sent : ℚ) ≠ tp := fun he => hfrac ⟨st.total_sent, he⟩
      have hlt : (st.total_sent : ℚ) < tp := lt_of_le_of_ne hle hne
      rw [simLoop, if_pos ⟨hlt, ht⟩]
      cases hs : simStep td tp wb st with
      | none => rfl
      | some res =>
        cases res with
        | done st2 =>
          exact absurd ((simStep_done_inv td tp wb st st2 hL hwlen ht hs).2)
            (fun he => hfrac ⟨st2.total_sent, he⟩)
        | cont st2 =>
          have hnx := simStep_cont_next td tp wb st st2 hL hwlen ht hs
          have hle2 : (st2.total_sent : ℚ) ≤ tp := by
            rcases simStep_cont_inv td tp wb st st2 hL hwlen ht hs with
              ⟨he, _, _⟩ | ⟨he, _⟩ | he
            · subst he
              exact flight_le_remaining tp st hlt
            · subst he
              exact hle
            · subst he
              exact hle
          exact ih st2 hnx.1 hnx.2 hle2

set_option maxRecDepth 10000 in
/-- C10 witness: with `total_data = 7`, `mss = 2` (`total_packets = 3.5`)
the run sends 3 whole packets, stalls with flight size 0, and aborts at the
horizon rather than completing. -/
theorem C10_fractional_target_never_completes_witness :
    simLoop 50 (7/2) wbZeros 70
      (initSt (List.replicate 65 1000) (List.replicate 65 1)) = none := by
  have hfrac : ¬ ∃ k : ℤ, (k : ℚ) = 7/2 := by
    rintro ⟨k, hk⟩
    have hc : ((k * 2 : ℤ) : ℚ) = ((7 : ℤ) : ℚ) := by
      push_cast
      rw [hk]
      norm_num
    have := Int.cast_injective hc
    omega
  have h := C10_fractional_target_never_completes 50 (7/2) wbZeros
    (by with_unfolding_all decide) hfrac
  exact h.2.2 70 (initSt (List.replicate 65 1000) (List.replicate 65 1))
    (by with_unfolding_all decide) (by with_unfolding_all decide)
    (by with_unfolding_all decide)

set_option maxRecDepth 10000 in
/-- C6 counterexample: with initial threshold 2, an unconstrained receiver
window of 100 and a loss at step 8, the window grows to 9 by step 8, so the
loss revision writes `max(2, 9/2) = 4.5` into `ssthresh[10..64]` — strictly
above the value 2 those entries held immediately before the revision.  The
threshold therefore increases in response to loss. -/
theorem C6_counterexample :
    ((stepN 1000 1000 (wbLossAt 8) 8 (initSt (List.replicate 65 2)
        (List.replicate 65 100))).map (fun st => st.ssthresh.getD 10 0) =
      some 2) ∧
    ((stepN 1000 1000 (wbLossAt 8) 9 (initSt (List.replicate 65 2)
        (List.replicate 65 100))).map (fun st => st.ssthresh.getD 10 0) =
      some (9/2)) ∧
    (wbLossAt 8).getD 8 0 = -1 ∧
    ¬ ((9/2 : ℚ) ≤ (2 : ℚ)) := by
  with_unfolding_all decide

/-- C6 amended: the loss revision writes `max(2, flight/2)` into every
remaining entry; the written value is less than or equal to the value an
entry held immediately before the revision exactly when that prior value is
at least 2 and at least `flight/2` — so `ssthresh` is non-increasing under
loss only in that case, and can increase when the flight size at loss
exceeds twice the prior threshold. -/
theorem C6_amended_loss_revision_bound (td tp : ℚ) (wb : List ℤ) (st : SimSt)
    (hL : goodLens st) (hwlen : wb.length = 65) (ht : st.t < 65)
    (hw : wb.getD st.t 0 = -1) (hb : st.t + st.back_off ≤ 64) :
    simStep td tp wb st = some (StepRes.cont (lossSt tp st)) ∧
    ∀ x, st.t + st.back_off ≤ x → x ≤ 64 →
      ((lossSt tp st).ssthresh.getD x 0 = max 2 ((flightOf tp st : ℚ) / 2) ∧
       ((lossSt tp st).ssthresh.getD x 0 ≤ st.ssthresh.getD x 0 ↔
        ((2:ℚ) ≤ st.ssthresh.getD x 0 ∧
         (flightOf tp st : ℚ) / 2 ≤ st.ssthresh.getD x 0))) := by
  obtain ⟨hc, hs, hss, hr⟩ := hL
  constructor
  · rw [simStep_cases td tp wb st ⟨hc, hs, hss, hr⟩ hwlen ht,
      if_neg (by rw [hw]; decide), if_pos hw, if_pos (by omega)]
  · intro x hx1 hx2
    have hgd : (lossSt tp st).ssthresh.getD x 0 =
        max 2 ((flightOf tp st : ℚ) / 2) :=
      getD_setFrom_of_le _ _ _ _ _ hx1 (by omega)
    refine ⟨hgd, ?_⟩
    rw [hgd]
    exact max_le_iff

set_option maxRecDepth 10000 in
/-- C6 witness: at a concrete loss step with flight size 1 and prior
threshold 8 the revision writes `max(2, 1/2) = 2 ≤ 8`, a non-increase. -/
theorem C6_amended_loss_revision_bound_witness :
    (lossSt 50 demoLossSt).ssthresh.getD 10 0 =
      max 2 ((flightOf 50 demoLossSt : ℚ) / 2) ∧
    (lossSt 50 demoLossSt).ssthresh.getD 10 0 ≤ demoLossSt.ssthresh.getD 10 0 := by
  have h := C6_amended_loss_revision_bound 50 50 (wbLossAt 3) demoLossSt
    (by with_unfolding_all decide) (by with_unfolding_all decide)
    (by with_unfolding_all decide) (by with_unfolding_all decide)
    (by with_unfolding_all decide)
  have h10 := h.2 10 (by with_unfolding_all decide) (by omega)
  exact ⟨h10.1, h10.2.mpr (by with_unfolding_all decide)⟩

theorem grow_ge (th : ℚ) (n : ℕ) : ∀ c : ℚ, 1 ≤ c →
    c ≤ grow c th n ∧ 1 ≤ grow c th n := by
  induction n with
  | zero =>
    intro c hc
    exact ⟨le_refl _, hc⟩
  | succ m ih =>
    intro c hc
    have hstep : c ≤ (if c < th then c + 1 else c + 1/c) ∧
        (1:ℚ) ≤ (if c < th then c + 1 else c + 1/c) := by
      by_cases h : c < th
      · rw [if_pos h]
        constructor <;> linarith
      · rw [if_neg h]
        have hpos : (0:ℚ) < c := by linarith
        have hinv : (0:ℚ) < 1/c := by positivity
        constructor <;> linarith
    have hrec := ih _ hstep.2
    rw [grow]
    exact ⟨le_trans hstep.1 hrec.1, hrec.2⟩

theorem bankersRound_ge_floor (q : ℚ) : ⌊q⌋ ≤ bankersRound q := by
  unfold bankersRound
  split_ifs <;> omega

theorem round2_ge (k : ℤ) (v : ℚ) (h : (k : ℚ)/100 ≤ v) :
    (k : ℚ)/100 ≤ round2 v := by
  have h1 : (k : ℚ) ≤ v * 100 := by
    rw [div_le_iff₀ (by norm_num : (0:ℚ) < 100)] at h
    exact h
  have h2 : k ≤ ⌊v * 100⌋ := Int.le_floor.mpr h1
  have h3 : k ≤ bankersRound (v * 100) := le_trans h2 (bankersRound_ge_floor _)
  unfold round2
  rw [div_le_div_iff_of_pos_right (by norm_num : (0:ℚ) < 100)]
  exact_mod_cast h3

theorem round2_cent (q : ℚ) : ∃ m : ℤ, round2 q = (m : ℚ)/100 :=
  ⟨bankersRound (q * 100), rfl⟩

theorem round2_tie_ge (c : ℚ) (P : Prop) [Decidable P] (k : ℤ)
    (hk : (k:ℚ)/100 ≤ c) :
    (k:ℚ)/100 ≤ round2 (if P then (⌈c⌉ : ℚ) else c) := by
  have hc : c ≤ (if P then (⌈c⌉ : ℚ) else c) := by
    split_ifs
    · exact Int.le_ceil _
    · exact le_refl _
  exact round2_ge k _ (le_trans hk hc)

theorem updVal_ge (prev th sp rc : ℚ) (k : ℤ) (hk : prev = (k : ℚ)/100)
    (h1 : 1 ≤ prev) : prev ≤ updVal prev th sp rc := by
  have hgrow : prev ≤ grow prev th (pyInt sp).toNat :=
    (grow_ge th _ prev h1).1
  unfold updVal
  rw [hk] at hgrow ⊢
  exact round2_tie_ge _ _ k hgrow

theorem updVal_cent (prev th sp rc : ℚ) :
    ∃ m : ℤ, updVal prev th sp rc = (m : ℚ)/100 := by
  unfold updVal
  exact round2_cent _

theorem simStep_cont_inv_normal (td tp : ℚ) (wb : List ℤ) (st st2 : SimSt)
    (hL : goodLens st) (hwlen : wb.length = 65) (ht : st.t < 65)
    (hw : wb.getD st.t 0 = 0)
    (h : simStep td tp wb st = some (StepRes.cont st2)) :
    st2 = contSt tp st ∧ ¬ ((st.total_sent + flightOf tp st : ℤ) : ℚ) = tp ∧
      st.t + 1 < 65 := by
  rw [simStep_cases td tp wb st hL hwlen ht, if_pos hw] at h
  by_cases hcmp : ((st.total_sent + flightOf tp st : ℤ) : ℚ) = tp
  · rw [if_pos hcmp] at h
    exact absurd h (by simp)
  · rw [if_neg hcmp] at h
    by_cases ht1 : st.t + 1 < 65
    · rw [if_pos ht1] at h
      cases h
      exact ⟨rfl, hcmp, ht1⟩
    · rw [if_neg ht1] at h
      exact absurd h (by simp)

theorem loop_mono_aux (td tp : ℚ) : ∀ fuel (st r : SimSt) (b : Bool),
    goodLens st → st.t < 65 →
    (∀ i, i ≤ st.t → (1:ℚ) ≤ st.cwnd.getD i 0 ∧
       ∃ k : ℤ, st.cwnd.getD i 0 = (k:ℚ)/100) →
    (∀ i j, i ≤ j → j ≤ st.t → st.cwnd.getD i 0 ≤ st.cwnd.getD j 0) →
    simLoop td tp wbZeros fuel st = some (r, b) →
    (∀ i j, i ≤ j → j ≤ r.t → r.cwnd.getD i 0 ≤ r.cwnd.getD j 0) := by
  intro fuel
  induction fuel with
  | zero =>
    intro st r b _ _ _ _ h
    exact absurd h (by simp [simLoop])
  | succ n ih =>
    intro st r b hL ht hcent hmono h
    rw [simLoop] at h
    by_cases hcond : (st.total_sent : ℚ) < tp ∧ st.t < 65
    · rw [if_pos hcond] at h
      have hw : wbZeros.getD st.t 0 = 0 := by
        unfold wbZeros
        exact getD_replicate _ _ _ _ ht
      have hwlen : wbZeros.length = 65 := by simp [wbZeros]
      cases hs : simStep td tp wbZeros st with
      | none => rw [hs] at h; exact absurd h (by simp)
      | some res =>
        cases res with
        | done st2 =>
          rw [hs] at h
          simp only [Option.some.injEq, Prod.mk.injEq] at h
          obtain ⟨hr, _⟩ := h
          obtain ⟨heq, _⟩ := simStep_done_inv td tp wbZeros st st2 hL hwlen ht hs
          subst heq
          subst hr
          exact hmono
        | cont st2 =>
          rw [hs] at h
          obtain ⟨heq, _, ht1⟩ :=
            simStep_cont_inv_normal td tp wbZeros st st2 hL hwlen ht hw hs
          have hnx := simStep_cont_next td tp wbZeros st st2 hL hwlen ht hs
          subst heq
          obtain ⟨hcl, _, _, _⟩ := hL
          have hset_self : ∀ v : ℚ, (st.cwnd.set (st.t+1) v).getD (st.t+1) 0 = v :=
            fun v => getD_set_self _ _ _ _ (by omega)
          have hset_ne : ∀ (v : ℚ) (i : ℕ), i ≤ st.t →
              (st.cwnd.set (st.t+1) v).getD i 0 = st.cwnd.getD i 0 :=
            fun v i hi => getD_set_ne _ _ _ _ _ (by omega)
          have hprev := hcent st.t (le_refl _)
          obtain ⟨hp1, kp, hkp⟩ := hprev
          have hupge : st.cwnd.getD st.t 0 ≤
              updVal (st.cwnd.getD st.t 0) (st.ssthresh.getD (st.t + 1) 0)
                ((sndOf st : ℤ) : ℚ) (st.rcwnd.getD (st.t + 1) 0) :=
            updVal_ge _ _ _ _ kp hkp hp1
          refine ih (contSt tp st) r b hnx.1 hnx.2 ?_ ?_ h
          · intro i hi
            by_cases hieq : i = st.t + 1
            · subst hieq
              rw [show (contSt tp st).cwnd.getD (st.t+1) 0 =
                  updVal (st.cwnd.getD st.t 0) (st.ssthresh.getD (st.t + 1) 0)
                    ((sndOf st : ℤ) : ℚ) (st.rcwnd.getD (st.t + 1) 0) from
                  hset_self _]
              exact ⟨le_trans hp1 hupge, updVal_cent _ _ _ _⟩
            · have hi2 : i ≤ st.t := by
                have : (contSt tp st).t = st.t + 1 := rfl
                omega
              rw [show (contSt tp st).cwnd.getD i 0 = st.cwnd.getD i 0 from
                hset_ne _ i hi2]
              exact ⟨(hcent i hi2).1, (hcent i hi2).2⟩
          · intro i j hij hj
            by_cases hjeq : j = st.t + 1
            · subst hjeq
              by_cases hieq : i = st.t + 1
              · subst hieq
                exact le_refl _
              · have hi2 : i ≤ st.t := by omega
                rw [show (contSt tp st).cwnd.getD i 0 = st.cwnd.getD i 0 from
                  hset_ne _ i hi2,
                  show (contSt tp st).cwnd.getD (st.t+1) 0 =
                    updVal (st.cwnd.getD st.t 0) (st.ssthresh.getD (st.t + 1) 0)
                      ((sndOf st : ℤ) : ℚ) (st.rcwnd.getD (st.t + 1) 0) from
                    hset_self _]
                exact le_trans (hmono i st.t hi2 (le_refl _)) hupge
            · have hj2 : j ≤ st.t := by
                have : (contSt tp st).t = st.t + 1 := rfl
                omega
              have hi2 : i ≤ st.t := le_trans hij hj2
              rw [show (contSt tp st).cwnd.getD i 0 = st.cwnd.getD i 0 from
                  hset_ne _ i hi2,
                show (contSt tp st).cwnd.getD j 0 = st.cwnd.getD j 0 from
                  hset_ne _ j hj2]
              exact hmono i j hij hj2
    · rw [if_neg hcond] at h
      simp only [Option.some.injEq, Prod.mk.injEq] at h
      obtain ⟨hr, _⟩ := h
      subst hr
      exact hmono

/-- C8: in any run of the simulation loop with no loss steps, the
congestion-window values recorded for the processed steps `0..t` are
non-decreasing up to the final processed step, despite the two-decimal
rounding applied to each new value (the rounding cannot drop the new value
below its predecessor because every stored value is a multiple of 0.01 and
rounding only moves within the same 0.01 grid).  This holds for every
receiver-window schedule, in particular one that never binds. -/
theorem C8_no_loss_cwnd_monotone (td tp : ℚ) (ss rc : List ℚ)
    (hss : ss.length = 65) (hrc : rc.length = 65) :
    ∀ fuel (r : SimSt) (b : Bool),
      simLoop td tp wbZeros fuel (initSt ss rc) = some (r, b) →
      ∀ i j, i ≤ j → j ≤ r.t → r.cwnd.getD i 0 ≤ r.cwnd.getD j 0 := by
  intro fuel r b h
  refine loop_mono_aux td tp fuel (initSt ss rc) r b ?_
    (by show (0:ℕ) < 65; omega) ?_ ?_ h
  · exact ⟨by simp [initSt], by simp [initSt], hss, hrc⟩
  · intro i hi
    have hi0 : i = 0 := by
      have : (initSt ss rc).t = 0 := rfl
      omega
    subst hi0
    constructor
    · rw [show (initSt ss rc).cwnd.getD 0 0 = (1:ℚ) from
        getD_replicate _ _ _ _ (by omega)]
    · exact ⟨100, by
        rw [show (initSt ss rc).cwnd.getD 0 0 = (1:ℚ) from
          getD_replicate _ _ _ _ (by omega)]
        norm_num⟩
  · intro i j hij hj
    have hj0 : j = 0 := by
      have : (initSt ss rc).t = 0 := rfl
      omega
    have hi0 : i = 0 := by omega
    subst hj0
    subst hi0
    exact le_refl _

set_option maxRecDepth 10000 in
/-- C8 witness: in the concrete completing no-loss run the processed window
values 1 (step 0) and 2 (step 1) are non-decreasing. -/
theorem C8_no_loss_cwnd_monotone_witness :
    ((⟨(List.replicate 65 1).set 1 2, (List.replicate 65 1).set 1 2,
        List.replicate 65 1000, List.replicate 65 1000, 2, 3, 1⟩ :
        SimSt).cwnd.getD 0 0) ≤
    ((⟨(List.replicate 65 1).set 1 2, (List.replicate 65 1).set 1 2,
        List.replicate 65 1000, List.replicate 65 1000, 2, 3, 1⟩ :
        SimSt).cwnd.getD 1 0) := by
  have h := C8_no_loss_cwnd_monotone 50 3 (List.replicate 65 1000)
    (List.replicate 65 1000) (by simp) (by simp) 70
    ⟨(List.replicate 65 1).set 1 2, (List.replicate 65 1).set 1 2,
      List.replicate 65 1000, List.replicate 65 1000, 2, 3, 1⟩ true
    (by with_unfolding_all decide)
  exact h 0 1 (by omega) (by with_unfolding_all decide)

/-- C5 counterexample: schedule construction does use out-of-range step
indices.  A loss interval entered as time range [-3, 2) with rtt = 1 wraps
its negative indices Python-style and marks steps 62, 63 and 64 as lost
(instead of ignoring or clamping them), and a loss interval whose converted
start 70 lies in (65, 100] is not dropped — the write at index 70 raises an
out-of-bounds error (modelled `none`). -/
theorem C5_counterexample :
    ((get_working_binary 1 [(-3, 2), (101, 0)]).map
        (fun wb => (wb.getD 62 0, wb.getD 63 0, wb.getD 64 0,
                    wb.getD 1 0, wb.getD 2 0)) =
      some (-1, -1, -1, -1, 0)) ∧
    get_working_binary 1 [(70, 72), (101, 0)] = none := by
  with_unfolding_all decide

theorem pyInt_le_of_le (q : ℚ) (b : ℤ) (h : q ≤ (b:ℚ)) (hb : 0 ≤ b) :
    pyInt q ≤ b := by
  unfold pyInt
  split_ifs with hq
  · have h1 : (0:ℤ) ≤ ⌊-q⌋ := Int.floor_nonneg.mpr (by linarith)
    omega
  · calc ⌊q⌋ ≤ ⌊(b:ℚ)⌋ := Int.floor_le_floor h
      _ = b := Int.floor_intCast b

theorem writeRangeAux_char {α : Type} (v : α) : ∀ (n : ℕ) (a : ℤ) (l : List α),
    0 ≤ a → a + n ≤ l.length →
    ∃ l2, writeRangeAux v n a l = some l2 ∧ l2.length = l.length ∧
      ∀ (j : ℕ) (d : α), j < l.length →
        l2.getD j d = if a ≤ (j:ℤ) ∧ (j:ℤ) < a + n then v else l.getD j d := by
  intro n
  induction n with
  | zero =>
    intro a l ha hn
    refine ⟨l, rfl, rfl, ?_⟩
    intro j d hj
    rw [if_neg (by omega)]
  | succ m ih =>
    intro a l ha hn
    have hset : pySet l a v = some (l.set a.toNat v) := by
      unfold pySet
      simp only [if_neg (not_lt.mpr ha)]
      rw [if_pos ⟨ha, by omega⟩]
    obtain ⟨l2, heq, hlen, hchar⟩ := ih (a + 1) (l.set a.toNat v)
      (by omega) (by rw [List.length_set]; omega)
    refine ⟨l2, ?_, by rw [hlen, List.length_set], ?_⟩
    · simp only [writeRangeAux, hset]
      exact heq
    · intro j d hj
      rw [hchar j d (by rw [List.length_set]; omega)]
      by_cases hja : (j : ℤ) = a
      · rw [if_neg (by omega), if_pos (by omega)]
        have hjeq : j = a.toNat := by omega
        rw [hjeq]
        exact getD_set_self _ _ _ _ (by omega)
      · by_cases hmid : a + 1 ≤ (j:ℤ) ∧ (j:ℤ) < a + 1 + (m:ℤ)
        · rw [if_pos hmid, if_pos (by omega)]
        · rw [if_neg hmid, if_neg (by omega)]
          exact getD_set_ne _ _ _ _ _ (by omega)

/-- C5 amended: schedule construction stays within indices 0..64 only for
converted step indices that already lie inside [0, 65]: a receiver override
whose quotient exceeds 65 ends input with no write; an in-range receiver
override writes exactly the tail from its converted index; an in-range loss
interval marks exactly its converted half-open range.  But out-of-range
indices are not clamped, rejected or ignored: negative converted indices
wrap around to the end of the array, and a loss interval whose converted
start lies in (65, 100] raises an out-of-bounds error instead of being
dropped. -/
theorem C5_amended_schedule_bounds (rtt mss : ℚ) (rcwnd : List ℚ)
    (hlen : rcwnd.length = 65) :
    (∀ (tm v : ℚ) (rest : List (ℚ × ℚ)), tm / rtt > 65 →
       update_rcwnd rcwnd rtt mss ((tm, v) :: rest) = some rcwnd) ∧
    (∀ tm v s2 v2 : ℚ, ¬ tm / rtt > 65 → 0 ≤ pyInt (tm / rtt) →
       s2 / rtt > 65 →
       ∃ r, update_rcwnd rcwnd rtt mss [(tm, v), (s2, v2)] = some r ∧
         r.length = 65 ∧
         ∀ j : ℕ, j < 65 →
           r.getD j 0 = if pyInt (tm / rtt) ≤ (j:ℤ) then v / mss
                        else rcwnd.getD j 0) ∧
    (∀ s e s2 e2 : ℚ, ¬ s / rtt > 100 → 0 ≤ pyInt (s / rtt) →
       pyInt (s / rtt) ≤ pyInt (e / rtt) → pyInt (e / rtt) ≤ 65 →
       s2 / rtt > 100 →
       ∃ wb, get_working_binary rtt [(s, e), (s2, e2)] = some wb ∧
         wb.length = 65 ∧
         ∀ j : ℕ, j < 65 →
           wb.getD j 0 = if pyInt (s / rtt) ≤ (j:ℤ) ∧ (j:ℤ) < pyInt (e / rtt)
                         then -1 else 0) := by
  refine ⟨?_, ?_, ?_⟩
  · intro tm v rest htm
    simp only [update_rcwnd, if_pos htm]
  · intro tm v s2 v2 htm h0 hs2
    have hle65 : pyInt (tm / rtt) ≤ 65 :=
      pyInt_le_of_le _ 65 (by exact_mod_cast not_lt.mp (by exact_mod_cast htm)) (by omega)
    obtain ⟨r, heq, hrlen, hchar⟩ := writeRangeAux_char (v / mss)
      ((65 - pyInt (tm / rtt)).toNat) (pyInt (tm / rtt)) rcwnd h0 (by omega)
    refine ⟨r, ?_, by omega, ?_⟩
    · simp only [update_rcwnd, if_neg htm]
      rw [show writeRange rcwnd (pyInt (tm / rtt)) 65 (v / mss) = some r from heq]
      simp only [if_pos hs2]
    · intro j hj
      rw [hchar j 0 (by omega)]
      by_cases haj : pyInt (tm / rtt) ≤ (j:ℤ)
      · rw [if_pos ⟨haj, by omega⟩, if_pos haj]
      · rw [if_neg (by omega), if_neg haj]
  · intro s e s2 e2 hs h0 hab hb65 hs2
    have hrep : (List.replicate 65 (0:ℤ)).length = 65 := by simp
    obtain ⟨wb, heq, hwlen, hchar⟩ := writeRangeAux_char (-1 : ℤ)
      ((pyInt (e / rtt) - pyInt (s / rtt)).toNat) (pyInt (s / rtt))
      (List.replicate 65 0) h0 (by rw [hrep]; omega)
    refine ⟨wb, ?_, by omega, ?_⟩
    · unfold get_working_binary
      simp only [gwbAux, if_neg hs]
      rw [show writeRange (List.replicate 65 (0:ℤ)) (pyInt (s / rtt))
          (pyInt (e / rtt)) (-1) = some wb from heq]
      simp only [if_pos hs2]
    · intro j hj
      rw [hchar j 0 (by omega)]
      by_cases hcnd : pyInt (s / rtt) ≤ (j:ℤ) ∧ (j:ℤ) < pyInt (e / rtt)
      · rw [if_pos (by omega), if_pos hcnd]
      · rw [if_neg (by omega), if_neg hcnd]
        exact getD_replicate _ _ _ _ hj

/-- C5 witness: a receiver override at quotient 70 > 65 is ignored; an
override at step 3 rewrites the tail (step 5 becomes 7, step 2 stays 1);
an in-range loss interval [2, 4) marks exactly steps 2 and 3. -/
theorem C5_amended_schedule_bounds_witness :
    update_rcwnd (List.replicate 65 1) 1 1 [(70, 5)] =
      some (List.replicate 65 1) ∧
    ((update_rcwnd (List.replicate 65 1) 1 1 [(3, 7), (101, 0)]).map
      (fun r => (r.getD 5 0, r.getD 2 0))) = some (7, 1) ∧
    ((get_working_binary 1 [(2, 4), (101, 0)]).map
      (fun wb => (wb.getD 3 0, wb.getD 4 0))) = some (-1, 0) := by
  have h := C5_amended_schedule_bounds 1 1 (List.replicate 65 1) (by simp)
  refine ⟨h.1 70 5 [] (by norm_num), ?_, ?_⟩
  · obtain ⟨r, hr, _, hchar⟩ := h.2.1 3 7 101 0 (by norm_num)
      (by with_unfolding_all decide) (by norm_num)
    rw [hr]
    show some (r.getD 5 0, r.getD 2 0) = some (7, 1)
    rw [hchar 5 (by omega), hchar 2 (by omega)]
    with_unfolding_all decide
  · obtain ⟨wb, hwb, _, hchar⟩ := h.2.2 2 4 101 0 (by norm_num)
      (by with_unfolding_all decide) (by with_unfolding_all decide)
      (by with_unfolding_all decide) (by norm_num)
    rw [hwb]
    show some (wb.getD 3 0, wb.getD 4 0) = some (-1, 0)
    rw [hchar 3 (by omega), hchar 4 (by omega)]
    with_unfolding_all decide
